import Mathlib

/-!
Verification of the hashsummer repository: a shallow embedding of the
reverse-readable variable-length integer codec and the bungee byte arena
(src/utils/bungee.rs), the diffing iterator (src/store/mod.rs), the hashes
chunk serialization (src/file/chunks/hashes_chunk.rs), the fingerprint
ordering (src/hasher/mod.rs) and the per-file scan pipeline
(src/hasher/runner.rs).

Machine integers (usize, u64, u32, u8) are modelled as Nat, with explicit
`% 2 ^ 64` at the operations where the Rust code uses wrapping arithmetic.
Byte vectors are modelled as `List Nat`.
-/

namespace HashSummer

/-! ### Variable-length integers (`impl OffsetInt for VarInt<usize>`)

The codec of src/utils/bungee.rs lines 189-259.  A 1-byte encoding
`0xxxxxxx` covers 0..127; a multi-byte encoding sets the high bit on the
first and last byte of the run, intermediate bytes have the high bit clear,
seven data bits per byte, little-endian.  usize is 64 bits wide. -/

/-- `MAX_BYTES` of `OffsetInt for VarInt<usize>`: `size_of::<usize>() + 1`. -/
def varintMaxBytes : Nat := 8 + 1

/-- `msb_bit(value) = value & MSB_BIT != 0` for `MSB_BIT = 0x80`. -/
def msbBit (b : Nat) : Bool := b &&& 128 != 0

/-- The loop of `VarInt::write` after the first byte was emitted: writes
7-bit groups, setting the high bit on the final (terminating) byte. -/
def varintWriteLoop (v : Nat) : List Nat :=
  if v >>> 7 = 0 then [(v &&& 127) ||| 128] else (v &&& 127) :: varintWriteLoop (v >>> 7)
termination_by v
decreasing_by
  simp only [Nat.shiftRight_eq_div_pow] at *
  exact Nat.div_lt_self (Nat.pos_of_ne_zero (by omega)) (by norm_num)

/-- `VarInt::write`: values up to 127 are a single plain byte; otherwise the
first byte carries the low 7 bits with the high bit set, followed by the
remaining 7-bit groups. -/
def varintWrite (v : Nat) : List Nat :=
  if v ≤ 127 then [v] else ((v &&& 127) ||| 128) :: varintWriteLoop (v >>> 7)

/-- The accumulation loop of `VarInt::read`: ORs in 7-bit groups at
increasing shifts (the Rust `wrapping_shl` masks the shift amount by 63 and
truncates to 64 bits) and stops after the first byte with the high bit
set. If the slice is exhausted first, the value accumulated so far is
returned (as in the Rust `for` loop). -/
def varintReadLoop : List Nat → Nat → Nat → Nat × Nat
  | [], value, i => (value, i)
  | b :: rest, value, i =>
    if msbBit b then (value ||| (b &&& 127) <<< (7 * i % 64) % 2 ^ 64, i + 1)
    else varintReadLoop rest (value ||| (b &&& 127) <<< (7 * i % 64) % 2 ^ 64) (i + 1)

/-- `VarInt::read`: forward decoding.  The Rust code indexes `data[0]` and
would panic on an empty slice; the model returns `(0, 0)` there, and every
theorem below only applies it to non-empty encodings. -/
def varintRead (data : List Nat) : Nat × Nat :=
  match data with
  | [] => (0, 0)
  | d0 :: rest => if msbBit d0 then varintReadLoop rest (d0 &&& 127) 1 else (d0, 1)

/-- The accumulation loop of `VarInt::reverse_read`, processing bytes from
the end of the slice towards the front (the argument list is already
reversed): shifts the value left by 7 (`wrapping_shl(7)`, truncated to 64
bits), ORs the next 7-bit group in, and stops after the first byte with the
high bit set. -/
def varintRevLoop : List Nat → Nat → Nat → Nat × Nat
  | [], value, i => (value, i)
  | b :: rest, value, i =>
    let value2 := value <<< 7 % 2 ^ 64 ||| (b &&& 127)
    if msbBit b then (value2, i + 1) else varintRevLoop rest value2 (i + 1)

/-- `VarInt::reverse_read` on an already-reversed byte list: the head is
the last byte of the slice. -/
def varintRevStart (data : List Nat) : Nat × Nat :=
  match data with
  | [] => (0, 0)
  | d0 :: rest => if msbBit d0 then varintRevLoop rest (d0 &&& 127) 1 else (d0, 1)

/-- `VarInt::reverse_read`: decoding that starts at the last byte of the
slice and scans backwards. -/
def varintReverseRead (data : List Nat) : Nat × Nat :=
  varintRevStart data.reverse

/-! Arithmetic views of the bit operations used by the codec. -/

theorem two_pow_7_eq : (2 : Nat) ^ 7 = 128 := by norm_num

theorem and_127_eq_mod (v : Nat) : v &&& 127 = v % 128 := by
  have h := Nat.and_pow_two_sub_one_eq_mod v 7
  rw [two_pow_7_eq] at h
  norm_num at h
  exact h

theorem shiftRight_7_eq_div (v : Nat) : v >>> 7 = v / 128 := by
  rw [Nat.shiftRight_eq_div_pow, two_pow_7_eq]

theorem or_mul_pow_eq_add {a b n : Nat} (ha : a < 2 ^ n) :
    a ||| b * 2 ^ n = a + b * 2 ^ n := by
  have h2 := Nat.mul_add_lt_is_or (i := n) ha b
  rw [Nat.or_comm, Nat.mul_comm b (2 ^ n)]
  omega

theorem or_128_eq_add {c : Nat} (h : c < 128) : c ||| 128 = c + 128 := by
  have h2 := or_mul_pow_eq_add (a := c) (b := 1) (n := 7)
    (by rw [two_pow_7_eq]; exact h)
  rw [two_pow_7_eq] at h2
  norm_num at h2
  exact h2

theorem mul_128_or_eq_add {a b : Nat} (hb : b < 128) :
    a * 128 ||| b = a * 128 + b := by
  have h2 := Nat.mul_add_lt_is_or (i := 7) (by rw [two_pow_7_eq]; exact hb) a
  rw [two_pow_7_eq, Nat.mul_comm (128 : Nat) a] at h2
  omega

theorem msbBit_eq_testBit (b : Nat) : msbBit b = b.testBit 7 := by
  have h : b &&& 128 = (b.testBit 7).toNat * 128 := by
    have h2 := Nat.and_two_pow b 7
    rw [two_pow_7_eq] at h2
    exact h2
  cases hb : b.testBit 7 <;> simp [msbBit, h, hb]

theorem msbBit_of_lt {c : Nat} (h : c < 128) : msbBit c = false := by
  rw [msbBit_eq_testBit]
  exact Nat.testBit_lt_two_pow (by rw [two_pow_7_eq]; exact h)

theorem msbBit_add_128 {c : Nat} (h : c < 128) : msbBit (c + 128) = true := by
  rw [msbBit_eq_testBit, Nat.testBit_to_div_mod, two_pow_7_eq]
  simp only [decide_eq_true_eq]
  omega

theorem add_128_and_127 {c : Nat} (h : c < 128) : (c + 128) &&& 127 = c := by
  rw [and_127_eq_mod]
  omega

/-- Forward decoding consumes exactly the bytes written by
`varintWriteLoop`, accumulating the written integer shifted into place;
trailing bytes are untouched. -/
theorem varintReadLoop_writeLoop (u : Nat) (hu : 0 < u) :
    ∀ acc i T, acc < 2 ^ (7 * i) → u * 2 ^ (7 * i) < 2 ^ 64 →
    varintReadLoop (varintWriteLoop u ++ T) acc i
      = (acc + u * 2 ^ (7 * i), i + (varintWriteLoop u).length) := by
  induction u using Nat.strong_induction_on with
  | _ u ih =>
    intro acc i T hacc hbound
    have hshift : 7 * i < 64 := by
      by_contra hge
      have h1 : (2 : Nat) ^ 64 ≤ 2 ^ (7 * i) :=
        Nat.pow_le_pow_right (by norm_num) (by omega)
      have h2 : 2 ^ (7 * i) ≤ u * 2 ^ (7 * i) := Nat.le_mul_of_pos_left _ hu
      omega
    have hmod : 7 * i % 64 = 7 * i := Nat.mod_eq_of_lt hshift
    by_cases h0 : u / 128 = 0
    · have hu128 : u < 128 := by omega
      have hand : u &&& 127 = u := by rw [and_127_eq_mod]; omega
      have hlist : varintWriteLoop u = [u + 128] := by
        rw [varintWriteLoop, shiftRight_7_eq_div, if_pos h0, hand,
          or_128_eq_add hu128]
      rw [hlist]
      simp only [List.cons_append, List.nil_append, varintReadLoop]
      rw [msbBit_add_128 hu128, if_pos rfl, add_128_and_127 hu128, hmod,
        Nat.shiftLeft_eq, Nat.mod_eq_of_lt hbound, or_mul_pow_eq_add hacc]
      simp
    · have hu128 : 128 ≤ u := by
        by_contra hlt
        have : u / 128 = 0 := Nat.div_eq_of_lt (by omega)
        omega
      have hmlt : u % 128 < 128 := Nat.mod_lt u (by norm_num)
      have hlist : varintWriteLoop u = u % 128 :: varintWriteLoop (u / 128) := by
        rw [varintWriteLoop, shiftRight_7_eq_div, if_neg h0, and_127_eq_mod]
      rw [hlist]
      simp only [List.cons_append, varintReadLoop, List.append_eq]
      rw [msbBit_of_lt hmlt, if_neg Bool.false_ne_true]
      have hinner : acc ||| (u % 128 &&& 127) <<< (7 * i % 64) % 2 ^ 64
          = acc + u % 128 * 2 ^ (7 * i) := by
        have hmm : u % 128 &&& 127 = u % 128 := by rw [and_127_eq_mod]; omega
        rw [hmm, hmod, Nat.shiftLeft_eq]
        have hlt : u % 128 * 2 ^ (7 * i) < 2 ^ 64 :=
          calc u % 128 * 2 ^ (7 * i) ≤ u * 2 ^ (7 * i) :=
                Nat.mul_le_mul_right _ (Nat.mod_le u 128)
            _ < 2 ^ 64 := hbound
        rw [Nat.mod_eq_of_lt hlt, or_mul_pow_eq_add hacc]
      rw [hinner]
      have hrec := ih (u / 128) (Nat.div_lt_self (by omega) (by norm_num))
        (Nat.div_pos hu128 (by norm_num))
        (acc + u % 128 * 2 ^ (7 * i)) (i + 1) T
        (by
          have h1 : u % 128 * 2 ^ (7 * i) ≤ 127 * 2 ^ (7 * i) :=
            Nat.mul_le_mul_right _ (by omega)
          calc acc + u % 128 * 2 ^ (7 * i) < 128 * 2 ^ (7 * i) := by omega
            _ = 2 ^ (7 * (i + 1)) := by ring
        )
        (by
          have h1 : u / 128 * 2 ^ (7 * (i + 1)) ≤ u * 2 ^ (7 * i) := by
            have h2 : u / 128 * 128 ≤ u := Nat.div_mul_le_self u 128
            calc u / 128 * 2 ^ (7 * (i + 1)) = u / 128 * 128 * 2 ^ (7 * i) := by
                  ring
              _ ≤ u * 2 ^ (7 * i) := Nat.mul_le_mul_right _ h2
          omega)
      rw [hrec]
      simp only [List.length_cons, Prod.mk.injEq]
      constructor
      · have hdm : u % 128 + u / 128 * 128 = u := by omega
        calc acc + u % 128 * 2 ^ (7 * i) + u / 128 * 2 ^ (7 * (i + 1))
            = acc + (u % 128 + u / 128 * 128) * 2 ^ (7 * i) := by ring
          _ = acc + u * 2 ^ (7 * i) := by rw [hdm]
      · omega

/-- `VarInt::read` inverts `VarInt::write` and reports the encoded length,
for every value below `2 ^ 63` and independently of trailing bytes. -/
theorem varintRead_write (v : Nat) (hv : v < 2 ^ 63) (T : List Nat) :
    varintRead (varintWrite v ++ T) = (v, (varintWrite v).length) := by
  by_cases h : v ≤ 127
  · have hw : varintWrite v = [v] := by rw [varintWrite, if_pos h]
    rw [hw]
    simp only [List.cons_append, List.nil_append, varintRead]
    rw [msbBit_of_lt (by omega : v < 128), if_neg Bool.false_ne_true]
    simp
  · have hv128 : 128 ≤ v := by omega
    have hmlt : v % 128 < 128 := Nat.mod_lt v (by norm_num)
    have hw : varintWrite v = (v % 128 + 128) :: varintWriteLoop (v / 128) := by
      rw [varintWrite, if_neg h, and_127_eq_mod, or_128_eq_add hmlt,
        shiftRight_7_eq_div]
    rw [hw]
    simp only [List.cons_append, varintRead]
    rw [msbBit_add_128 hmlt, if_pos rfl, add_128_and_127 hmlt]
    have h71 : (2 : Nat) ^ (7 * 1) = 128 := by norm_num
    have hrec := varintReadLoop_writeLoop (v / 128) (by omega) (v % 128) 1 T
      (by rw [h71]; omega)
      (by
        have h1 : v / 128 * 2 ^ (7 * 1) ≤ v := by
          rw [h71]
          have h2 := Nat.div_mul_le_self v 128
          omega
        have h2 : (2 : Nat) ^ 63 < 2 ^ 64 := by norm_num
        omega)
    rw [hrec]
    simp only [List.length_cons, Prod.mk.injEq]
    constructor
    · rw [h71]
      omega
    · omega

/-- Reverse decoding of the bytes of `varintWriteLoop u` (presented
reversed, the terminator first) never stops inside the run: it accumulates
exactly `u` and hands control to the remaining (earlier) bytes. -/
theorem varintRevStart_writeLoop (u : Nat) (hu : 0 < u) (hb : u < 2 ^ 57) :
    ∀ T, varintRevStart ((varintWriteLoop u).reverse ++ T)
      = varintRevLoop T u (varintWriteLoop u).length := by
  induction u using Nat.strong_induction_on with
  | _ u ih =>
    intro T
    by_cases h0 : u / 128 = 0
    · have hu128 : u < 128 := by omega
      have hand : u &&& 127 = u := by rw [and_127_eq_mod]; omega
      have hlist : varintWriteLoop u = [u + 128] := by
        rw [varintWriteLoop, shiftRight_7_eq_div, if_pos h0, hand,
          or_128_eq_add hu128]
      rw [hlist]
      simp only [List.reverse_cons, List.reverse_nil, List.nil_append,
        List.cons_append, varintRevStart]
      rw [msbBit_add_128 hu128, if_pos rfl, add_128_and_127 hu128]
      simp
    · have hu128 : 128 ≤ u := by
        by_contra hlt
        have h1 : u / 128 = 0 := Nat.div_eq_of_lt (by omega)
        omega
      have hmlt : u % 128 < 128 := Nat.mod_lt u (by norm_num)
      have hdivpos : 0 < u / 128 := Nat.div_pos hu128 (by norm_num)
      have hdivlt : u / 128 < 2 ^ 57 := by
        have h1 := Nat.div_le_self u 128
        omega
      have hlist : varintWriteLoop u = u % 128 :: varintWriteLoop (u / 128) := by
        rw [varintWriteLoop, shiftRight_7_eq_div, if_neg h0, and_127_eq_mod]
      rw [hlist, List.reverse_cons, List.append_assoc]
      rw [ih (u / 128) (Nat.div_lt_self (by omega) (by norm_num)) hdivpos hdivlt]
      simp only [List.singleton_append, List.nil_append, varintRevLoop]
      rw [msbBit_of_lt hmlt, if_neg Bool.false_ne_true]
      have hinner : (u / 128) <<< 7 % 2 ^ 64 ||| (u % 128 &&& 127) = u := by
        have hmm : u % 128 &&& 127 = u % 128 := by rw [and_127_eq_mod]; omega
        have hsl : (u / 128) <<< 7 % 2 ^ 64 = u / 128 * 128 := by
          rw [Nat.shiftLeft_eq, two_pow_7_eq]
          apply Nat.mod_eq_of_lt
          calc u / 128 * 128 ≤ u := Nat.div_mul_le_self u 128
            _ < 2 ^ 57 := hb
            _ < 2 ^ 64 := by norm_num
        rw [hmm, hsl, mul_128_or_eq_add hmlt]
        omega
      rw [hinner]
      simp

/-- `VarInt::reverse_read` recovers a written value from the end of any
byte sequence that ends with its encoding: the backwards scan stops at the
encoding's first byte (whose high bit is set) and never looks at `P`. -/
theorem varintReverseRead_write (v : Nat) (hv : v < 2 ^ 63) (P : List Nat) :
    varintReverseRead (P ++ varintWrite v) = (v, (varintWrite v).length) := by
  rw [varintReverseRead, List.reverse_append]
  by_cases h : v ≤ 127
  · have hw : varintWrite v = [v] := by rw [varintWrite, if_pos h]
    rw [hw]
    simp only [List.reverse_cons, List.reverse_nil, List.nil_append,
      List.cons_append, varintRevStart]
    rw [msbBit_of_lt (by omega : v < 128), if_neg Bool.false_ne_true]
    simp
  · have hv128 : 128 ≤ v := by omega
    have hmlt : v % 128 < 128 := Nat.mod_lt v (by norm_num)
    have hdivpos : 0 < v / 128 := Nat.div_pos hv128 (by norm_num)
    have hdivlt : v / 128 < 2 ^ 57 := by
      have h1 : v / 128 ≤ 2 ^ 63 / 128 := Nat.div_le_div_right (Nat.le_of_lt hv)
      have h2 : (2 : Nat) ^ 63 / 128 < 2 ^ 57 := by norm_num
      omega
    have hw : varintWrite v = (v % 128 + 128) :: varintWriteLoop (v / 128) := by
      rw [varintWrite, if_neg h, and_127_eq_mod, or_128_eq_add hmlt,
        shiftRight_7_eq_div]
    rw [hw, List.reverse_cons, List.append_assoc]
    rw [varintRevStart_writeLoop (v / 128) hdivpos hdivlt]
    simp only [List.singleton_append, List.nil_append, varintRevLoop,
      List.cons_append]
    rw [msbBit_add_128 hmlt, if_pos rfl, add_128_and_127 hmlt]
    have hinner : (v / 128) <<< 7 % 2 ^ 64 ||| v % 128 = v := by
      have hsl : (v / 128) <<< 7 % 2 ^ 64 = v / 128 * 128 := by
        rw [Nat.shiftLeft_eq, two_pow_7_eq]
        apply Nat.mod_eq_of_lt
        calc v / 128 * 128 ≤ v := Nat.div_mul_le_self v 128
          _ < 2 ^ 63 := hv
          _ < 2 ^ 64 := by norm_num
      rw [hsl, mul_128_or_eq_add hmlt]
      omega
    rw [hinner]
    simp

/-- C6: for every integer `v` in `[0, 2 ^ (7 * MAX_BYTES) - 1]`, writing
`v` with the reverse-readable variable-length encoding and decoding it,
either forward with `read` or backward with `reverse_read`, returns `v`
together with the number of bytes the write produced. -/
theorem varint_read_write_roundtrip (v : Nat)
    (hv : v < 2 ^ (7 * varintMaxBytes)) :
    varintRead (varintWrite v) = (v, (varintWrite v).length) ∧
    varintReverseRead (varintWrite v) = (v, (varintWrite v).length) := by
  have hv63 : v < 2 ^ 63 := by
    have h : 7 * varintMaxBytes = 63 := by norm_num [varintMaxBytes]
    rw [h] at hv
    exact hv
  constructor
  · have h := varintRead_write v hv63 []
    rw [List.append_nil] at h
    exact h
  · have h := varintReverseRead_write v hv63 []
    rw [List.nil_append] at h
    exact h

/-- Witness for C6 at `v = 300`. -/
theorem varint_read_write_roundtrip_witness :
    300 < 2 ^ (7 * varintMaxBytes) ∧
    (varintRead (varintWrite 300) = (300, (varintWrite 300).length) ∧
     varintReverseRead (varintWrite 300) = (300, (varintWrite 300).length)) :=
  ⟨by norm_num [varintMaxBytes],
   varint_read_write_roundtrip 300 (by norm_num [varintMaxBytes])⟩

/-! ### The bungee byte arena (`BungeeBytes<VarInt<usize>>`)

src/utils/bungee.rs lines 42-132.  The arena is a flat byte vector; a
record is appended as `[varint(offset to previous)][payload][varint(len)]`
and an index designates the byte position one past a record's end.  `None`
is modelled by index 0 being reserved (`NonZeroUsize` in the source). -/

/-- `BungeeBytes::push`: an empty payload returns `previous` unchanged;
otherwise the record bytes are appended (the source reserves
`2 * MAX_BYTES + len` bytes and truncates what the writers did not use,
which nets to appending exactly the written bytes) and the new arena end
is returned as the record's index.  The previous-offset subtraction
`pos - prev` matches the source for every in-range index. -/
def bungeePush (data : List Nat) (prev : Option Nat) (payload : List Nat) :
    List Nat × Option Nat :=
  if payload = [] then (data, prev)
  else
    (data ++ (varintWrite (data.length - prev.getD 0) ++ payload ++
        varintWrite payload.length),
     some (data.length + (varintWrite (data.length - prev.getD 0) ++ payload ++
        varintWrite payload.length).length))

/-- `BungeeBytes::reverse_read`: from index `at_`, reads the payload
length varint backwards, slices the payload, reads the previous-offset
varint backwards, and derives the skip index (position just before this
record) and the predecessor index (skip minus the stored offset), with 0
mapped to `none` (`NonZeroUsize::new`). -/
def bungeeReverseRead (data : List Nat) (at_ : Nat) :
    List Nat × Option Nat × Option Nat :=
  let slice := data.take at_
  let p1 := varintReverseRead slice
  let e := slice.length - p1.2
  let start := e - p1.1
  let p2 := varintReverseRead (slice.take start)
  let skip := start - p2.2
  ((slice.take e).drop start,
   if skip = 0 then none else some skip,
   if skip - p2.1 = 0 then none else some (skip - p2.1))

/-- Reading back the record that `push` appends after `front` recovers the
payload, the stored previous-offset (as `front.length - off`), and the
record's start position as the skip index. -/
theorem bungeeReverseRead_record (front payload : List Nat) (off : Nat)
    (hoff : off < 2 ^ 63) (hplen : payload.length < 2 ^ 63) :
    bungeeReverseRead
        (front ++ (varintWrite off ++ payload ++ varintWrite payload.length))
        (front.length +
          (varintWrite off ++ payload ++ varintWrite payload.length).length)
      = (payload,
         if front.length = 0 then none else some front.length,
         if front.length - off = 0 then none else some (front.length - off)) := by
  have htake : (front ++ (varintWrite off ++ payload ++
      varintWrite payload.length)).take
        (front.length +
          (varintWrite off ++ payload ++ varintWrite payload.length).length)
      = front ++ (varintWrite off ++ payload ++ varintWrite payload.length) := by
    rw [← List.length_append, List.take_length]
  have hassoc1 : front ++ (varintWrite off ++ payload ++
      varintWrite payload.length)
      = ((front ++ varintWrite off) ++ payload) ++ varintWrite payload.length := by
    simp [List.append_assoc]
  have hp1 : varintReverseRead (front ++ (varintWrite off ++ payload ++
      varintWrite payload.length))
      = (payload.length, (varintWrite payload.length).length) := by
    rw [hassoc1]
    exact varintReverseRead_write payload.length hplen _
  have he : (front ++ (varintWrite off ++ payload ++
      varintWrite payload.length)).length - (varintWrite payload.length).length
      = ((front ++ varintWrite off) ++ payload).length := by
    simp [List.length_append]
    omega
  have htake2 : (front ++ (varintWrite off ++ payload ++
      varintWrite payload.length)).take (((front ++ varintWrite off) ++
        payload).length)
      = (front ++ varintWrite off) ++ payload := by
    rw [hassoc1]
    exact List.take_left _ _
  have hstart : ((front ++ varintWrite off) ++ payload).length - payload.length
      = (front ++ varintWrite off).length := by
    simp [List.length_append]
    omega
  have htake3 : (front ++ (varintWrite off ++ payload ++
      varintWrite payload.length)).take ((front ++ varintWrite off).length)
      = front ++ varintWrite off := by
    have hassoc2 : front ++ (varintWrite off ++ payload ++
        varintWrite payload.length)
        = (front ++ varintWrite off) ++
          (payload ++ varintWrite payload.length) := by
      simp [List.append_assoc]
    rw [hassoc2]
    exact List.take_left _ _
  have hp2 : varintReverseRead (front ++ varintWrite off)
      = (off, (varintWrite off).length) :=
    varintReverseRead_write off hoff front
  have hskip : (front ++ varintWrite off).length - (varintWrite off).length
      = front.length := by
    simp [List.length_append]
  have hdrop : ((front ++ varintWrite off) ++ payload).drop
      ((front ++ varintWrite off).length) = payload := List.drop_left _ _
  simp only [bungeeReverseRead, htake, hp1, he, hstart, htake2, htake3, hp2,
    hskip, hdrop]

/-- C5: for every optional predecessor index `prev` (any in-range index,
`0` being reserved) and every byte payload `s`: if `s` is non-empty,
`reverse_read` applied to the index returned by `push(prev, s)` yields the
payload `s`, the predecessor `prev`, and some skip index; if `s` is empty,
`push(prev, s)` returns `prev` unchanged and leaves the arena unmodified. -/
theorem bungee_push_reverse_read (data payload : List Nat) (prev : Option Nat)
    (hprev : prev.getD 0 ≤ data.length ∧ prev ≠ some 0)
    (hlen : data.length < 2 ^ 63) (hplen : payload.length < 2 ^ 63) :
    (payload = [] → bungeePush data prev payload = (data, prev)) ∧
    (payload ≠ [] → ∃ i, (bungeePush data prev payload).2 = some i ∧
      (bungeeReverseRead (bungeePush data prev payload).1 i).1 = payload ∧
      (bungeeReverseRead (bungeePush data prev payload).1 i).2.2 = prev) := by
  constructor
  · intro h
    simp [bungeePush, h]
  · intro hne
    have hpush1 : (bungeePush data prev payload).1
        = data ++ (varintWrite (data.length - prev.getD 0) ++ payload ++
            varintWrite payload.length) := by
      simp [bungeePush, hne]
    have hpush2 : (bungeePush data prev payload).2
        = some (data.length +
            (varintWrite (data.length - prev.getD 0) ++ payload ++
              varintWrite payload.length).length) := by
      simp [bungeePush, hne]
    refine ⟨_, hpush2, ?_⟩
    rw [hpush1]
    have hoff : data.length - prev.getD 0 < 2 ^ 63 := by omega
    have hrec := bungeeReverseRead_record data payload
      (data.length - prev.getD 0) hoff hplen
    rw [hrec]
    constructor
    · rfl
    · have hgd : data.length - (data.length - prev.getD 0) = prev.getD 0 := by
        omega
      rw [hgd]
      match prev, hprev with
      | none, _ => simp
      | some p, hp =>
        have hp0 : p ≠ 0 := by
          intro h
          exact hp.2 (by rw [h])
        simp [hp0]

/-- Witness for C5: pushing payload `[5]` into an empty arena with no
predecessor, then reading it back. -/
theorem bungee_push_reverse_read_witness :
    ((Option.getD (none : Option Nat) 0 ≤ ([] : List Nat).length ∧
      (none : Option Nat) ≠ some 0) ∧
     ([] : List Nat).length < 2 ^ 63 ∧ [5].length < 2 ^ 63) ∧
    (∃ i, (bungeePush [] none [5]).2 = some i ∧
      (bungeeReverseRead (bungeePush [] none [5]).1 i).1 = [5] ∧
      (bungeeReverseRead (bungeePush [] none [5]).1 i).2.2 = none) :=
  ⟨⟨⟨by decide, by decide⟩, by norm_num, by norm_num⟩,
   (bungee_push_reverse_read [] [5] none ⟨by decide, by decide⟩ (by norm_num)
     (by norm_num)).2 (by decide)⟩

/-! ### The diffing iterator (src/store/mod.rs lines 32-186)

`DiffingIter` is generic over items implementing `NamedValue` (a name with
a total order, a value with equality); it holds the two underlying
iterators plus one buffered head from each.  Underlying iterators are
modelled as lists (`next()` = take the head). -/

/-- `DiffResult` (src/store/mod.rs lines 32-38). -/
inductive DiffResult (E : Type) where
  | added (e : E)
  | removed (e : E)
  | changed (o : E) (n : E)
  | same (e : E)
deriving DecidableEq

/-- `DiffType` (src/store/mod.rs lines 40-46). -/
inductive DiffType where
  | added
  | removed
  | changed
  | same
deriving DecidableEq

/-- `DiffResult::diff_type` (src/store/mod.rs lines 48-57). -/
def DiffResult.diffType {E : Type} : DiffResult E → DiffType
  | .added _ => .added
  | .removed _ => .removed
  | .changed _ _ => .changed
  | .same _ => .same

/-- An item with a `NamedValue` view (src/store/mod.rs lines 59-78):
`get_name` is the `name` field, `get_value` the `value` field. -/
structure NamedEntry (N V : Type) where
  name : N
  value : V
deriving DecidableEq

/-- The state of `DiffingIter`: the two underlying iterators and the two
buffered heads `curr_old` and `curr_new`. -/
structure DiffState (N V : Type) where
  old : List (NamedEntry N V)
  new : List (NamedEntry N V)
  currOld : Option (NamedEntry N V)
  currNew : Option (NamedEntry N V)
deriving DecidableEq

/-- `DiffingIter::new` (src/store/mod.rs lines 110-117): pulls one element
from each input into the buffered heads. -/
def diffInit {N V : Type} (old new : List (NamedEntry N V)) : DiffState N V :=
  { currOld := old.head?, currNew := new.head?, old := old.tail, new := new.tail }

/-- `Ord::cmp` of the name type: three-way comparison of a total order. -/
def cmpO {N : Type} [LinearOrder N] (a b : N) : Ordering :=
  if a < b then .lt else if b < a then .gt else .eq

/-- `replace(&mut self.curr_old, self.old.next())`: the old head is
refilled from the old iterator. -/
def advanceOld {N V : Type} (s : DiffState N V) : DiffState N V :=
  { s with currOld := s.old.head?, old := s.old.tail }

/-- `replace(&mut self.curr_new, self.new.next())`: the new head is
refilled from the new iterator. -/
def advanceNew {N V : Type} (s : DiffState N V) : DiffState N V :=
  { s with currNew := s.new.head?, new := s.new.tail }

/-- `DiffingIter::next` (src/store/mod.rs lines 128-161): one step of the
merge, returning the emitted record (if any) and the successor state. -/
def diffNext {N V : Type} [LinearOrder N] [DecidableEq V] (s : DiffState N V) :
    Option (DiffResult (NamedEntry N V)) × DiffState N V :=
  match s.currOld, s.currNew with
  | none, some n => (some (.added n), advanceNew s)
  | some o, none => (some (.removed o), advanceOld s)
  | none, none => (none, s)
  | some o, some n =>
    match cmpO o.name n.name with
    | .eq =>
      if o.value = n.value then (some (.same o), advanceOld (advanceNew s))
      else (some (.changed o n), advanceOld (advanceNew s))
    | .gt => (some (.added n), advanceNew s)
    | .lt => (some (.removed o), advanceOld s)

/-- Remaining old-side input of a state: the buffered head then the rest. -/
def remOld {N V : Type} (s : DiffState N V) : List (NamedEntry N V) :=
  s.currOld.toList ++ s.old

/-- Remaining new-side input of a state: the buffered head then the rest. -/
def remNew {N V : Type} (s : DiffState N V) : List (NamedEntry N V) :=
  s.currNew.toList ++ s.new

/-- Termination measure of the merge: remaining elements on both sides. -/
def diffMeasure {N V : Type} (s : DiffState N V) : Nat :=
  (remOld s).length + (remNew s).length

theorem head_toList_append_tail {α : Type} (l : List α) :
    l.head?.toList ++ l.tail = l := by
  cases l <;> simp

theorem diffMeasure_advanceOld {N V : Type} (s : DiffState N V)
    (o : NamedEntry N V) (h : s.currOld = some o) :
    diffMeasure (advanceOld s) + 1 = diffMeasure s := by
  simp [diffMeasure, advanceOld, remOld, remNew, h]
  cases hl : s.old <;> simp <;> omega

theorem diffMeasure_advanceNew {N V : Type} (s : DiffState N V)
    (n : NamedEntry N V) (h : s.currNew = some n) :
    diffMeasure (advanceNew s) + 1 = diffMeasure s := by
  simp [diffMeasure, advanceNew, remOld, remNew, h]
  cases hl : s.new <;> simp <;> omega

/-- Every emitting step strictly shrinks the remaining input. -/
theorem diffNext_measure_lt {N V : Type} [LinearOrder N] [DecidableEq V]
    (s s2 : DiffState N V) (r : DiffResult (NamedEntry N V))
    (h : diffNext s = (some r, s2)) : diffMeasure s2 < diffMeasure s := by
  obtain ⟨old, new, currOld, currNew⟩ := s
  cases currOld with
  | none =>
    cases currNew with
    | none => simp [diffNext] at h
    | some n =>
      simp only [diffNext] at h
      rw [Prod.mk.injEq] at h
      obtain ⟨-, h2⟩ := h
      rw [← h2]
      have h1 := diffMeasure_advanceNew ⟨old, new, none, some n⟩ n rfl
      omega
  | some o =>
    cases currNew with
    | none =>
      simp only [diffNext] at h
      rw [Prod.mk.injEq] at h
      obtain ⟨-, h2⟩ := h
      rw [← h2]
      have h1 := diffMeasure_advanceOld ⟨old, new, some o, none⟩ o rfl
      omega
    | some n =>
      have hAN := diffMeasure_advanceNew ⟨old, new, some o, some n⟩ n rfl
      have hAO := diffMeasure_advanceOld ⟨old, new, some o, some n⟩ o rfl
      have hBoth := diffMeasure_advanceOld
        (advanceNew ⟨old, new, some o, some n⟩) o rfl
      cases hc : cmpO o.name n.name with
      | eq =>
        simp only [diffNext, hc] at h
        by_cases hv : o.value = n.value <;> simp only [hv, if_pos, if_neg,
          if_true, if_false, reduceIte] at h <;>
          (rw [Prod.mk.injEq] at h; obtain ⟨-, h2⟩ := h; rw [← h2]; omega)
      | lt =>
        simp only [diffNext, hc] at h
        rw [Prod.mk.injEq] at h
        obtain ⟨-, h2⟩ := h
        rw [← h2]
        omega
      | gt =>
        simp only [diffNext, hc] at h
        rw [Prod.mk.injEq] at h
        obtain ⟨-, h2⟩ := h
        rw [← h2]
        omega

/-- The full emission sequence of the iterator: repeated `next()` until it
returns `None`. -/
def runDiff {N V : Type} [LinearOrder N] [DecidableEq V] (s : DiffState N V) :
    List (DiffResult (NamedEntry N V)) :=
  match h : diffNext s with
  | (none, _) => []
  | (some r, s2) => r :: runDiff s2
termination_by diffMeasure s
decreasing_by exact diffNext_measure_lt s s2 r h

/-- The merge of two entry lists, written as a recursion over the
remaining inputs; `runDiff_eq_diffList` below shows it is exactly what the
iterator emits. -/
def diffList {N V : Type} [LinearOrder N] [DecidableEq V] :
    List (NamedEntry N V) → List (NamedEntry N V) →
      List (DiffResult (NamedEntry N V))
  | [], [] => []
  | [], n :: ns => .added n :: diffList [] ns
  | o :: os, [] => .removed o :: diffList os []
  | o :: os, n :: ns =>
    match cmpO o.name n.name with
    | .eq =>
      if o.value = n.value then .same o :: diffList os ns
      else .changed o n :: diffList os ns
    | .gt => .added n :: diffList (o :: os) ns
    | .lt => .removed o :: diffList os (n :: ns)
termination_by o n => o.length + n.length
decreasing_by all_goals simp +arith [List.length_cons]

/-- Reachable iterator states: a buffered head is only absent once the
corresponding underlying iterator is exhausted. -/
def diffWF {N V : Type} (s : DiffState N V) : Prop :=
  (s.currOld = none → s.old = []) ∧ (s.currNew = none → s.new = [])

theorem diffWF_advanceOld {N V : Type} {s : DiffState N V} (h : diffWF s) :
    diffWF (advanceOld s) := by
  constructor
  · intro hh
    simp only [advanceOld] at hh ⊢
    rw [List.head?_eq_none_iff] at hh
    simp [hh]
  · intro hh
    simp only [advanceOld] at hh ⊢
    exact h.2 hh

theorem diffWF_advanceNew {N V : Type} {s : DiffState N V} (h : diffWF s) :
    diffWF (advanceNew s) := by
  constructor
  · intro hh
    simp only [advanceNew] at hh ⊢
    exact h.1 hh
  · intro hh
    simp only [advanceNew] at hh ⊢
    rw [List.head?_eq_none_iff] at hh
    simp [hh]

theorem diffWF_init {N V : Type} (old new : List (NamedEntry N V)) :
    diffWF (diffInit old new) := by
  constructor
  · intro hh
    simp only [diffInit] at hh ⊢
    rw [List.head?_eq_none_iff] at hh
    simp [hh]
  · intro hh
    simp only [diffInit] at hh ⊢
    rw [List.head?_eq_none_iff] at hh
    simp [hh]

/-- `next()` preserves reachability. -/
theorem diffNext_wf {N V : Type} [LinearOrder N] [DecidableEq V]
    (s s2 : DiffState N V) (r : Option (DiffResult (NamedEntry N V)))
    (hwf : diffWF s) (h : diffNext s = (r, s2)) : diffWF s2 := by
  obtain ⟨old, new, currOld, currNew⟩ := s
  cases currOld with
  | none =>
    cases currNew with
    | none =>
      simp only [diffNext] at h
      rw [Prod.mk.injEq] at h
      rw [← h.2]
      exact hwf
    | some n =>
      simp only [diffNext] at h
      rw [Prod.mk.injEq] at h
      rw [← h.2]
      exact diffWF_advanceNew hwf
  | some o =>
    cases currNew with
    | none =>
      simp only [diffNext] at h
      rw [Prod.mk.injEq] at h
      rw [← h.2]
      exact diffWF_advanceOld hwf
    | some n =>
      cases hc : cmpO o.name n.name with
      | eq =>
        by_cases hv : o.value = n.value <;>
          simp only [diffNext, hc, hv, reduceIte] at h <;>
          (rw [Prod.mk.injEq] at h; rw [← h.2];
           exact diffWF_advanceOld (diffWF_advanceNew hwf))
      | lt =>
        simp only [diffNext, hc] at h
        rw [Prod.mk.injEq] at h
        rw [← h.2]
        exact diffWF_advanceOld hwf
      | gt =>
        simp only [diffNext, hc] at h
        rw [Prod.mk.injEq] at h
        rw [← h.2]
        exact diffWF_advanceNew hwf

/-- One `next()` step corresponds to one unfolding of `diffList` on the
remaining inputs, for every reachable state. -/
theorem diffList_step {N V : Type} [LinearOrder N] [DecidableEq V]
    (s : DiffState N V) (hwf : diffWF s) :
    diffList (remOld s) (remNew s)
      = match diffNext s with
        | (none, _) => []
        | (some r, s2) => r :: diffList (remOld s2) (remNew s2) := by
  obtain ⟨old, new, currOld, currNew⟩ := s
  cases currOld with
  | none =>
    have hold : old = [] := hwf.1 rfl
    subst hold
    cases currNew with
    | none =>
      have hnew : new = [] := hwf.2 rfl
      subst hnew
      simp [diffNext, remOld, remNew, diffList]
    | some n =>
      simp only [diffNext, remOld, remNew, advanceNew, Option.toList_none,
        Option.toList_some, List.nil_append, List.singleton_append,
        List.append_nil]
      rw [head_toList_append_tail]
      simp only [diffList]
  | some o =>
    cases currNew with
    | none =>
      have hnew : new = [] := hwf.2 rfl
      subst hnew
      simp only [diffNext, remOld, remNew, advanceOld, Option.toList_none,
        Option.toList_some, List.nil_append, List.singleton_append,
        List.append_nil]
      rw [head_toList_append_tail]
      simp only [diffList]
    | some n =>
      cases hc : cmpO o.name n.name with
      | eq =>
        by_cases hv : o.value = n.value <;>
          (simp only [diffNext, hc, hv, reduceIte, remOld, remNew, advanceOld,
            advanceNew, Option.toList_none, Option.toList_some,
            List.singleton_append]
           rw [head_toList_append_tail, head_toList_append_tail]
           simp only [diffList, hc, hv, reduceIte])
      | lt =>
        simp only [diffNext, hc, remOld, remNew, advanceOld,
          Option.toList_some, List.singleton_append]
        rw [head_toList_append_tail]
        simp only [diffList, hc]
      | gt =>
        simp only [diffNext, hc, remOld, remNew, advanceNew,
          Option.toList_some, List.singleton_append]
        rw [head_toList_append_tail]
        simp only [diffList, hc]

/-- The iterator's emission sequence is `diffList` of the remaining
inputs. -/
theorem runDiff_of_none {N V : Type} [LinearOrder N] [DecidableEq V]
    (s s2 : DiffState N V) (h : diffNext s = (none, s2)) : runDiff s = [] := by
  rw [runDiff]
  split
  · rfl
  · next r s3 heq =>
    rw [h] at heq
    simp at heq

theorem runDiff_of_some {N V : Type} [LinearOrder N] [DecidableEq V]
    (s s2 : DiffState N V) (r : DiffResult (NamedEntry N V))
    (h : diffNext s = (some r, s2)) : runDiff s = r :: runDiff s2 := by
  rw [runDiff]
  split
  · next s3 heq =>
    rw [h] at heq
    simp at heq
  · next r2 s3 heq =>
    rw [h] at heq
    rw [Prod.mk.injEq] at heq
    obtain ⟨h1, h2⟩ := heq
    cases h1
    cases h2
    rfl

theorem runDiff_eq_diffList {N V : Type} [LinearOrder N] [DecidableEq V]
    (s : DiffState N V) (hwf : diffWF s) :
    runDiff s = diffList (remOld s) (remNew s) := by
  have H : ∀ m (s : DiffState N V), diffMeasure s = m → diffWF s →
      runDiff s = diffList (remOld s) (remNew s) := by
    intro m
    induction m using Nat.strong_induction_on with
    | _ m ih =>
      intro s hm hwf
      rw [diffList_step s hwf]
      cases h : diffNext s with
      | mk r s2 =>
        cases r with
        | none => exact runDiff_of_none s s2 h
        | some r =>
          have hlt := diffNext_measure_lt s s2 r h
          have hwf2 := diffNext_wf s s2 _ hwf h
          rw [runDiff_of_some s s2 r h]
          rw [ih (diffMeasure s2) (by omega) s2 rfl hwf2]
  exact H (diffMeasure s) s rfl hwf

/-- The fresh iterator over `old` and `new` emits `diffList old new`. -/
theorem runDiff_init {N V : Type} [LinearOrder N] [DecidableEq V]
    (old new : List (NamedEntry N V)) :
    runDiff (diffInit old new) = diffList old new := by
  rw [runDiff_eq_diffList _ (diffWF_init old new)]
  simp only [diffInit, remOld, remNew]
  rw [head_toList_append_tail, head_toList_append_tail]

theorem cmpO_of_lt {N : Type} [LinearOrder N] {a b : N} (h : a < b) :
    cmpO a b = .lt := by
  simp [cmpO, h]

theorem cmpO_of_gt {N : Type} [LinearOrder N] {a b : N} (h : b < a) :
    cmpO a b = .gt := by
  simp [cmpO, h, lt_asymm h]

theorem cmpO_of_eq {N : Type} [LinearOrder N] {a b : N} (h : a = b) :
    cmpO a b = .eq := by
  simp [cmpO, h]

theorem eq_of_cmpO_eq {N : Type} [LinearOrder N] {a b : N}
    (h : cmpO a b = .eq) : a = b := by
  by_contra hne
  rcases lt_or_gt_of_ne hne with hlt | hgt
  · rw [cmpO_of_lt hlt] at h
    cases h
  · rw [cmpO_of_gt hgt] at h
    cases h

/-- C2: each `next()` step of the diff iterator follows exactly the
specified case analysis: both heads absent ends the sequence; a single
present head is emitted as `Added`/`Removed` and that side advances; with
both heads present the name hashes are compared, equal names emit
`Same`/`Changed` (by content equality) advancing both, and the smaller
name is emitted as `Removed` (old side) or `Added` (new side), advancing
only that side. -/
theorem diffNext_case_analysis {N V : Type} [LinearOrder N] [DecidableEq V]
    (s : DiffState N V) :
    (s.currOld = none → s.currNew = none → diffNext s = (none, s)) ∧
    (∀ n, s.currOld = none → s.currNew = some n →
        diffNext s = (some (.added n), advanceNew s)) ∧
    (∀ o, s.currOld = some o → s.currNew = none →
        diffNext s = (some (.removed o), advanceOld s)) ∧
    (∀ o n, s.currOld = some o → s.currNew = some n → o.name = n.name →
        o.value = n.value →
        diffNext s = (some (.same o), advanceOld (advanceNew s))) ∧
    (∀ o n, s.currOld = some o → s.currNew = some n → o.name = n.name →
        o.value ≠ n.value →
        diffNext s = (some (.changed o n), advanceOld (advanceNew s))) ∧
    (∀ o n, s.currOld = some o → s.currNew = some n → o.name < n.name →
        diffNext s = (some (.removed o), advanceOld s)) ∧
    (∀ o n, s.currOld = some o → s.currNew = some n → n.name < o.name →
        diffNext s = (some (.added n), advanceNew s)) := by
  refine ⟨?_, ?_, ?_, ?_, ?_, ?_, ?_⟩
  · intro h1 h2
    simp [diffNext, h1, h2]
  · intro n h1 h2
    simp [diffNext, h1, h2]
  · intro o h1 h2
    simp [diffNext, h1, h2]
  · intro o n h1 h2 hname hval
    simp [diffNext, h1, h2, cmpO_of_eq hname, hval]
  · intro o n h1 h2 hname hval
    simp [diffNext, h1, h2, cmpO_of_eq hname, hval]
  · intro o n h1 h2 hlt
    simp [diffNext, h1, h2, cmpO_of_lt hlt]
  · intro o n h1 h2 hgt
    simp [diffNext, h1, h2, cmpO_of_gt hgt]

/-- Witness for C2: a state whose old head is exhausted and whose new head
holds an entry steps to `Added` of that entry. -/
theorem diffNext_case_analysis_witness :
    diffNext (⟨[], [], none, some ⟨1, 2⟩⟩ : DiffState Nat Nat)
      = (some (.added ⟨1, 2⟩), advanceNew ⟨[], [], none, some ⟨1, 2⟩⟩) :=
  (diffNext_case_analysis ⟨[], [], none, some ⟨1, 2⟩⟩).2.1 ⟨1, 2⟩ rfl rfl

/-- `countP` of one record kind in an emission list. -/
def countType {E : Type} (t : DiffType) (l : List (DiffResult E)) : Nat :=
  l.countP (fun r => decide (r.diffType = t))

theorem countType_nil {E : Type} (t : DiffType) :
    countType t ([] : List (DiffResult E)) = 0 := rfl

theorem countType_cons {E : Type} (t : DiffType) (r : DiffResult E)
    (l : List (DiffResult E)) :
    countType t (r :: l) = countType t l + if r.diffType = t then 1 else 0 := by
  simp [countType, List.countP_cons]

/-- Every record advances the new side iff it is `Added`, `Same` or
`Changed`; their total count equals the new input's length. -/
theorem diffList_count_new {N V : Type} [LinearOrder N] [DecidableEq V] :
    ∀ (old new : List (NamedEntry N V)),
      countType .added (diffList old new) + countType .same (diffList old new)
        + countType .changed (diffList old new) = new.length := by
  intro old
  induction old with
  | nil =>
    intro new
    induction new with
    | nil => simp [diffList, countType_nil]
    | cons n ns ihn =>
      simp +decide [diffList, countType_cons, DiffResult.diffType]
      omega
  | cons o os iho =>
    intro new
    induction new with
    | nil =>
      have h := iho []
      simp +decide [diffList, countType_cons, DiffResult.diffType] at h ⊢
      omega
    | cons n ns ihn =>
      cases hc : cmpO o.name n.name with
      | eq =>
        have h := iho ns
        by_cases hv : o.value = n.value <;>
          (simp +decide [diffList, hc, hv, countType_cons,
            DiffResult.diffType]
           omega)
      | lt =>
        have h := iho (n :: ns)
        simp +decide [diffList, hc, countType_cons, DiffResult.diffType]
          at h ⊢
        omega
      | gt =>
        simp +decide [diffList, hc, countType_cons, DiffResult.diffType]
          at ihn ⊢
        omega

/-- Every record advances the old side iff it is `Removed`, `Same` or
`Changed`; their total count equals the old input's length. -/
theorem diffList_count_old {N V : Type} [LinearOrder N] [DecidableEq V] :
    ∀ (old new : List (NamedEntry N V)),
      countType .removed (diffList old new) + countType .same (diffList old new)
        + countType .changed (diffList old new) = old.length := by
  intro old
  induction old with
  | nil =>
    intro new
    induction new with
    | nil => simp [diffList, countType_nil]
    | cons n ns ihn =>
      simp +decide [diffList, countType_cons, DiffResult.diffType] at ihn ⊢
      omega
  | cons o os iho =>
    intro new
    induction new with
    | nil =>
      have h := iho []
      simp +decide [diffList, countType_cons, DiffResult.diffType] at h ⊢
      omega
    | cons n ns ihn =>
      cases hc : cmpO o.name n.name with
      | eq =>
        have h := iho ns
        by_cases hv : o.value = n.value <;>
          (simp +decide [diffList, hc, hv, countType_cons,
            DiffResult.diffType]
           omega)
      | lt =>
        have h := iho (n :: ns)
        simp +decide [diffList, hc, countType_cons, DiffResult.diffType]
          at h ⊢
        omega
      | gt =>
        simp +decide [diffList, hc, countType_cons, DiffResult.diffType]
          at ihn ⊢
        omega

theorem lt_of_cmpO_lt {N : Type} [LinearOrder N] {a b : N}
    (h : cmpO a b = .lt) : a < b := by
  rcases lt_trichotomy a b with hlt | heq | hgt
  · exact hlt
  · rw [cmpO_of_eq heq] at h
    cases h
  · rw [cmpO_of_gt hgt] at h
    cases h

theorem gt_of_cmpO_gt {N : Type} [LinearOrder N] {a b : N}
    (h : cmpO a b = .gt) : b < a := by
  rcases lt_trichotomy a b with hlt | heq | hgt
  · rw [cmpO_of_lt hlt] at h
    cases h
  · rw [cmpO_of_eq heq] at h
    cases h
  · exact hgt

theorem not_mem_name_toFinset {N V : Type} [DecidableEq N] {a : N}
    {l : List (NamedEntry N V)} (h : ∀ b ∈ l, a ≠ b.name) :
    a ∉ (l.map NamedEntry.name).toFinset := by
  simp only [List.mem_toFinset, List.mem_map]
  rintro ⟨b, hb, hEq⟩
  exact h b hb hEq.symm

/-- On strictly name-sorted inputs the merge emits one record per distinct
name of the union. -/
theorem diffList_length_union {N V : Type} [LinearOrder N] [DecidableEq V] :
    ∀ (old new : List (NamedEntry N V)),
      old.Pairwise (fun a b => a.name < b.name) →
      new.Pairwise (fun a b => a.name < b.name) →
      (diffList old new).length
        = ((old.map NamedEntry.name).toFinset ∪
            (new.map NamedEntry.name).toFinset).card := by
  intro old
  induction old with
  | nil =>
    intro new
    induction new with
    | nil =>
      intro _ _
      simp [diffList]
    | cons n ns ihn =>
      intro hold hnew
      rw [List.pairwise_cons] at hnew
      have hnm : n.name ∉ (ns.map NamedEntry.name).toFinset :=
        not_mem_name_toFinset (fun b hb => ne_of_lt (hnew.1 b hb))
      simp only [diffList, List.length_cons, List.map_cons,
        List.toFinset_cons, List.map_nil, List.toFinset_nil,
        Finset.empty_union] at ihn ⊢
      rw [ihn hold hnew.2, Finset.card_insert_of_not_mem hnm]
  | cons o os iho =>
    intro new
    induction new with
    | nil =>
      intro hold _
      rw [List.pairwise_cons] at hold
      have hnm : o.name ∉ (os.map NamedEntry.name).toFinset :=
        not_mem_name_toFinset (fun b hb => ne_of_lt (hold.1 b hb))
      have h := iho [] hold.2 List.Pairwise.nil
      simp only [diffList, List.length_cons, List.map_cons,
        List.toFinset_cons, List.map_nil, List.toFinset_nil,
        Finset.union_empty] at h ⊢
      rw [h, Finset.card_insert_of_not_mem hnm]
    | cons n ns ihn =>
      intro hold hnew
      have holdc := hold
      have hnewc := hnew
      rw [List.pairwise_cons] at holdc hnewc
      cases hc : cmpO o.name n.name with
      | eq =>
        have hname : o.name = n.name := eq_of_cmpO_eq hc
        have hrec := iho ns holdc.2 hnewc.2
        have hno : o.name ∉ (os.map NamedEntry.name).toFinset :=
          not_mem_name_toFinset (fun b hb => ne_of_lt (holdc.1 b hb))
        have hnn : o.name ∉ (ns.map NamedEntry.name).toFinset := by
          rw [hname]
          exact not_mem_name_toFinset (fun b hb => ne_of_lt (hnewc.1 b hb))
        have hnu : o.name ∉ (os.map NamedEntry.name).toFinset ∪
            (ns.map NamedEntry.name).toFinset := by
          rw [Finset.mem_union]
          rintro (h | h)
          · exact hno h
          · exact hnn h
        have hcard : ((o :: os).map NamedEntry.name).toFinset ∪
            ((n :: ns).map NamedEntry.name).toFinset
            = insert o.name ((os.map NamedEntry.name).toFinset ∪
                (ns.map NamedEntry.name).toFinset) := by
          simp only [List.map_cons, List.toFinset_cons, ← hname,
            Finset.insert_union, Finset.union_insert, Finset.insert_idem]
        by_cases hv : o.value = n.value <;>
          (simp only [diffList, hc, hv, reduceIte, List.length_cons]
           rw [hrec, hcard, Finset.card_insert_of_not_mem hnu])
      | lt =>
        have hlt : o.name < n.name := lt_of_cmpO_lt hc
        have hrec := iho (n :: ns) holdc.2 hnew
        have hno : o.name ∉ (os.map NamedEntry.name).toFinset :=
          not_mem_name_toFinset (fun b hb => ne_of_lt (holdc.1 b hb))
        have hnn : o.name ∉ (((n :: ns).map NamedEntry.name).toFinset) := by
          apply not_mem_name_toFinset
          intro b hb
          rcases List.mem_cons.mp hb with rfl | hb2
          · exact ne_of_lt hlt
          · exact ne_of_lt (lt_trans hlt (hnewc.1 b hb2))
        have hnu : o.name ∉ (os.map NamedEntry.name).toFinset ∪
            (((n :: ns).map NamedEntry.name).toFinset) := by
          rw [Finset.mem_union]
          rintro (h | h)
          · exact hno h
          · exact hnn h
        simp only [diffList, hc, List.length_cons]
        rw [hrec]
        have hcard : ((o :: os).map NamedEntry.name).toFinset ∪
            (((n :: ns).map NamedEntry.name).toFinset)
            = insert o.name ((os.map NamedEntry.name).toFinset ∪
                (((n :: ns).map NamedEntry.name).toFinset)) := by
          simp only [List.map_cons, List.toFinset_cons, Finset.insert_union]
        rw [hcard, Finset.card_insert_of_not_mem hnu]
      | gt =>
        have hgt : n.name < o.name := gt_of_cmpO_gt hc
        have hrec := ihn hold hnewc.2
        have hnn : n.name ∉ (ns.map NamedEntry.name).toFinset :=
          not_mem_name_toFinset (fun b hb => ne_of_lt (hnewc.1 b hb))
        have hno : n.name ∉ (((o :: os).map NamedEntry.name).toFinset) := by
          apply not_mem_name_toFinset
          intro b hb
          rcases List.mem_cons.mp hb with rfl | hb2
          · exact ne_of_lt hgt
          · exact ne_of_lt (lt_trans hgt (holdc.1 b hb2))
        have hnu : n.name ∉ (((o :: os).map NamedEntry.name).toFinset) ∪
            (ns.map NamedEntry.name).toFinset := by
          rw [Finset.mem_union]
          rintro (h | h)
          · exact hno h
          · exact hnn h
        simp only [diffList, hc, List.length_cons]
        rw [hrec]
        have hcard : (((o :: os).map NamedEntry.name).toFinset) ∪
            ((n :: ns).map NamedEntry.name).toFinset
            = insert n.name ((((o :: os).map NamedEntry.name).toFinset) ∪
                (ns.map NamedEntry.name).toFinset) := by
          simp only [List.map_cons, List.toFinset_cons, Finset.union_insert]
        rw [hcard, Finset.card_insert_of_not_mem hnu]

/-- C3: on name-sorted inputs (strictly increasing name hashes) the diff
iterator emits exactly `|old ∪ new|` records (distinct names of the
union), with `#Added + #Same + #Changed = |new|` and
`#Removed + #Same + #Changed = |old|`. -/
theorem diff_record_counts {N V : Type} [LinearOrder N] [DecidableEq V]
    (old new : List (NamedEntry N V))
    (hold : old.Pairwise (fun a b => a.name < b.name))
    (hnew : new.Pairwise (fun a b => a.name < b.name)) :
    (runDiff (diffInit old new)).length
      = ((old.map NamedEntry.name).toFinset ∪
          (new.map NamedEntry.name).toFinset).card ∧
    countType .added (runDiff (diffInit old new))
      + countType .same (runDiff (diffInit old new))
      + countType .changed (runDiff (diffInit old new)) = new.length ∧
    countType .removed (runDiff (diffInit old new))
      + countType .same (runDiff (diffInit old new))
      + countType .changed (runDiff (diffInit old new)) = old.length := by
  rw [runDiff_init]
  exact ⟨diffList_length_union old new hold hnew,
    diffList_count_new old new, diffList_count_old old new⟩

/-- Witness for C3: `old = [(1,10), (2,20)]`, `new = [(1,10), (3,30)]`. -/
theorem diff_record_counts_witness :
    (([⟨1, 10⟩, ⟨2, 20⟩] : List (NamedEntry Nat Nat)).Pairwise
        (fun a b => a.name < b.name) ∧
     ([⟨1, 10⟩, ⟨3, 30⟩] : List (NamedEntry Nat Nat)).Pairwise
        (fun a b => a.name < b.name)) ∧
    ((runDiff (diffInit [⟨1, 10⟩, ⟨2, 20⟩] [⟨1, 10⟩, ⟨3, 30⟩])).length
      = ((([⟨1, 10⟩, ⟨2, 20⟩] : List (NamedEntry Nat Nat)).map
            NamedEntry.name).toFinset ∪
          (([⟨1, 10⟩, ⟨3, 30⟩] : List (NamedEntry Nat Nat)).map
            NamedEntry.name).toFinset).card ∧
     countType .added (runDiff (diffInit [⟨1, 10⟩, ⟨2, 20⟩] [⟨1, 10⟩, ⟨3, 30⟩]))
       + countType .same
          (runDiff (diffInit [⟨1, 10⟩, ⟨2, 20⟩] [⟨1, 10⟩, ⟨3, 30⟩]))
       + countType .changed
          (runDiff (diffInit [⟨1, 10⟩, ⟨2, 20⟩] [⟨1, 10⟩, ⟨3, 30⟩]))
       = ([⟨1, 10⟩, ⟨3, 30⟩] : List (NamedEntry Nat Nat)).length ∧
     countType .removed
        (runDiff (diffInit [⟨1, 10⟩, ⟨2, 20⟩] [⟨1, 10⟩, ⟨3, 30⟩]))
       + countType .same
          (runDiff (diffInit [⟨1, 10⟩, ⟨2, 20⟩] [⟨1, 10⟩, ⟨3, 30⟩]))
       + countType .changed
          (runDiff (diffInit [⟨1, 10⟩, ⟨2, 20⟩] [⟨1, 10⟩, ⟨3, 30⟩]))
       = ([⟨1, 10⟩, ⟨2, 20⟩] : List (NamedEntry Nat Nat)).length) :=
  ⟨⟨by decide, by decide⟩,
   diff_record_counts [⟨1, 10⟩, ⟨2, 20⟩] [⟨1, 10⟩, ⟨3, 30⟩]
     (by decide) (by decide)⟩

/-- The size hint of a slice-backed exact iterator: remaining length as
both bounds. -/
def listSizeHint {α : Type} (l : List α) : Nat × Option Nat :=
  (l.length, some l.length)

/-- `DiffingIter::size_hint` (src/store/mod.rs lines 163-177): combines
the two stored iterators' hints with `max` on the lower bounds and the
larger (or only) upper bound. -/
def diffSizeHint {N V : Type} (s : DiffState N V) : Nat × Option Nat :=
  ((listSizeHint s.old).1.max (listSizeHint s.new).1,
   match (listSizeHint s.old).2, (listSizeHint s.new).2 with
   | some x, some y => some (x.max y)
   | some x, none => some x
   | none, some y => some y
   | none, none => none)

theorem diffList_length_le {N V : Type} [LinearOrder N] [DecidableEq V] :
    ∀ (old new : List (NamedEntry N V)),
      (diffList old new).length ≤ old.length + new.length := by
  intro old
  induction old with
  | nil =>
    intro new
    induction new with
    | nil => simp [diffList]
    | cons n ns ihn =>
      simp only [diffList, List.length_cons, List.length_nil] at ihn ⊢
      omega
  | cons o os iho =>
    intro new
    induction new with
    | nil =>
      have h := iho []
      simp only [diffList, List.length_cons, List.length_nil] at h ⊢
      omega
    | cons n ns ihn =>
      cases hc : cmpO o.name n.name with
      | eq =>
        have h := iho ns
        by_cases hv : o.value = n.value <;>
          (simp only [diffList, hc, hv, reduceIte, List.length_cons]
           omega)
      | lt =>
        have h := iho (n :: ns)
        simp only [diffList, hc, List.length_cons] at h ⊢
        omega
      | gt =>
        simp only [diffList, hc, List.length_cons] at ihn ⊢
        omega

theorem le_diffList_length {N V : Type} [LinearOrder N] [DecidableEq V] :
    ∀ (old new : List (NamedEntry N V)),
      old.length.max new.length ≤ (diffList old new).length := by
  intro old
  induction old with
  | nil =>
    intro new
    induction new with
    | nil => simp [diffList]
    | cons n ns ihn =>
      simp only [diffList, List.length_cons, List.length_nil,
        Nat.max_le, Nat.le_max_left, Nat.le_max_right, Nat.zero_max] at ihn ⊢
      omega
  | cons o os iho =>
    intro new
    induction new with
    | nil =>
      have h := iho []
      simp only [diffList, List.length_cons, List.length_nil,
        Nat.max_zero] at h ⊢
      omega
    | cons n ns ihn =>
      cases hc : cmpO o.name n.name with
      | eq =>
        have h := iho ns
        by_cases hv : o.value = n.value <;>
          (simp only [diffList, hc, hv, reduceIte, List.length_cons,
            Nat.max_le] at h ⊢
           omega)
      | lt =>
        have h := iho (n :: ns)
        simp only [diffList, hc, List.length_cons, Nat.max_le] at h ⊢
        omega
      | gt =>
        simp only [diffList, hc, List.length_cons, Nat.max_le] at ihn ⊢
        omega

/-- C4 (amended): the diff iterator's size hint is
`(max(lo_a, lo_b), max_opt(hi_a, hi_b))` over the two stored iterators'
hints, and `ExactSizeIterator` is declared when both inputs are exact;
however the declared size is not the number of records emitted: a fresh
iterator over inputs of lengths `|old|` and `|new|` emits between
`max(|old|, |new|)` and `|old| + |new|` records, and the stored iterators
are already past the two buffered heads, so the hint undercounts. -/
theorem diff_size_hint_and_bounds (N V : Type) [LinearOrder N]
    [DecidableEq V] :
    (∀ s : DiffState N V,
        diffSizeHint s = (s.old.length.max s.new.length,
          some (s.old.length.max s.new.length))) ∧
    (∀ old new : List (NamedEntry N V),
        old.length.max new.length ≤ (runDiff (diffInit old new)).length ∧
        (runDiff (diffInit old new)).length ≤ old.length + new.length) := by
  constructor
  · intro s
    simp [diffSizeHint, listSizeHint]
  · intro old new
    rw [runDiff_init]
    exact ⟨le_diffList_length old new, diffList_length_le old new⟩

/-- Counterexample to C4 as stated: over the singleton inputs
`old = [(1,0)]`, `new = [(2,0)]` (exact sizes 1 and 1, distinct names) the
iterator emits 2 records, not `max(|old|, |new|) = 1`; the fresh state's
hint even reports `(0, some 0)`. -/
theorem diff_exact_size_counterexample :
    (runDiff (diffInit [⟨1, 0⟩] [⟨2, 0⟩] : DiffState Nat Nat)).length = 2 ∧
    diffSizeHint (diffInit ([⟨1, 0⟩] : List (NamedEntry Nat Nat)) [⟨2, 0⟩])
      = (0, some 0) ∧
    ¬ (runDiff (diffInit [⟨1, 0⟩] [⟨2, 0⟩] : DiffState Nat Nat)).length
        = ([(⟨1, 0⟩ : NamedEntry Nat Nat)].length).max
            ([⟨2, 0⟩] : List (NamedEntry Nat Nat)).length := by
  have h : runDiff (diffInit [⟨1, 0⟩] [⟨2, 0⟩] : DiffState Nat Nat)
      = [.removed ⟨1, 0⟩, .added ⟨2, 0⟩] := by
    rw [runDiff_init]
    have hc : cmpO (1 : Nat) 2 = .lt := cmpO_of_lt (by norm_num)
    simp only [diffList, hc]
  rw [h]
  refine ⟨rfl, by decide, by decide⟩

/-! ### Fingerprints, entries and the hashes chunk
(src/hasher/mod.rs, src/file/chunks/hashes_chunk.rs)

`HashArray<32>` is a 32-byte little-endian packed array; its `Ord`
compares the four 8-byte words from the most significant (highest
addressed) word down.  `HashEntry<32, 32>` is an `(id, data)` pair with
the derived lexicographic order.  Bytes are `Nat`s; `% 256` appears where
`u8` values are assembled into words. -/

/-- `u64::from_le_bytes` / `u32::from_le_bytes` over model bytes. -/
def leNum (l : List Nat) : Nat := l.foldr (fun b acc => b % 256 + 256 * acc) 0

/-- `to_le_bytes` with an explicit byte width. -/
def natToLE : Nat → Nat → List Nat
  | _, 0 => []
  | v, k + 1 => v % 256 :: natToLE (v / 256) k

/-- `aligned_chunks` of `HashArray`: the full 8-byte little-endian words
of the byte array (for `HashArray<32>`, exactly four; a trailing run
shorter than a word would not form an aligned chunk and is not compared). -/
def bytesToWords : List Nat → List Nat
  | b0 :: b1 :: b2 :: b3 :: b4 :: b5 :: b6 :: b7 :: rest =>
      leNum [b0, b1, b2, b3, b4, b5, b6, b7] :: bytesToWords rest
  | _ => []

/-- The loop of `Ord for HashArray::cmp`: first non-equal word pair
decides, `Equal` otherwise. -/
def cmpPairs : List (Nat × Nat) → Ordering
  | [] => .eq
  | (a, b) :: rest =>
    match cmpO a b with
    | .eq => cmpPairs rest
    | o => o

/-- `Ord for HashArray` (src/hasher/mod.rs lines 321-332): compare the
aligned words from the last (most significant) down. -/
def haCmp (x y : List Nat) : Ordering :=
  cmpPairs (((bytesToWords x).zip (bytesToWords y)).reverse)

/-- `HashEntry<32, 32>` (src/hasher/mod.rs lines 335-342): `id` is the
name hash, `data` the content hash. -/
structure HEntry where
  id : List Nat
  data : List Nat
deriving DecidableEq

/-- The derived `Ord for HashEntry`: lexicographic, `id` first. -/
def entryCmp (a b : HEntry) : Ordering :=
  match haCmp a.id b.id with
  | .eq => haCmp a.data b.data
  | o => o

/-- `cmp(a, b) != Ordering::Greater`. -/
def entryLe (a b : HEntry) : Bool :=
  match entryCmp a b with
  | .gt => false
  | _ => true

/-- One insertion of a sort by the derived entry order. -/
def insertE (a : HEntry) : List HEntry → List HEntry
  | [] => [a]
  | b :: bs => if entryLe a b then a :: b :: bs else b :: insertE a bs

/-- `Vec::sort_unstable` on entries, modelled as an insertion sort by the
same derived order (the post-state is a sorted permutation either way). -/
def sortEntries (l : List HEntry) : List HEntry := l.foldr insertE []

/-- `SortOrder` (src/file/chunks/hashes_chunk.rs lines 20-27). -/
inductive SortOrder where
  | Unordered
  | SortedByName
  | Unknown
  | SortedByData
deriving DecidableEq

/-- The `repr(u8)` discriminants: `sort as u32`. -/
def SortOrder.toFlag : SortOrder → Nat
  | .Unordered => 0
  | .SortedByName => 1
  | .Unknown => 2
  | .SortedByData => 3

/-- `HashType` (src/file/chunks/hashes_chunk.rs lines 29-33). -/
inductive HashType where
  | Sha256
  | Blake3
deriving DecidableEq

/-- `HashType::get_fingerprint`: the canonical 8-ASCII-byte spelling
(`"Sha2_256"`, `"Blake3__"`). -/
def HashType.get_fingerprint : HashType → List Nat
  | .Sha256 => [83, 104, 97, 50, 95, 50, 53, 54]
  | .Blake3 => [66, 108, 97, 107, 101, 51, 95, 95]

/-- `HashType::from_fingerprint`: historical spellings alias to the same
tag (`"Sha2_256" | "Sha256__" | "Sha2-256"`, `"Blake3__" | "BLAKE3__"`);
anything else is unknown. -/
def HashType.from_fingerprint (fp : List Nat) : Option HashType :=
  if fp = [83, 104, 97, 50, 95, 50, 53, 54] ∨
     fp = [83, 104, 97, 50, 53, 54, 95, 95] ∨
     fp = [83, 104, 97, 50, 45, 50, 53, 54] then some .Sha256
  else if fp = [66, 108, 97, 107, 101, 51, 95, 95] ∨
          fp = [66, 76, 65, 75, 69, 51, 95, 95] then some .Blake3
  else none

/-- `BlockType::Hashes.magic()`: `"hSb"` plus the type byte 2. -/
def hashesMagic : List Nat := [104, 83, 98, 2]

/-- `HashesChunk` (src/file/chunks/hashes_chunk.rs lines 12-18). -/
structure HashesChunk where
  data : List HEntry
  sort : SortOrder
  name_hash : HashType
  data_hash : HashType
deriving DecidableEq

/-- `HashesHeader::to_array` (lines 75-86): magic, `flags = sort & 3` as
u32, entry count as u64, the two fingerprints, 32 reserved zero bytes. -/
def hashesHeaderBytes (sort : SortOrder) (size : Nat) (nh dh : HashType) :
    List Nat :=
  hashesMagic ++ natToLE (sort.toFlag &&& 3) 4 ++ natToLE size 8 ++
    nh.get_fingerprint ++ dh.get_fingerprint ++ List.replicate 32 0

/-- Errors of the chunk reader: bad magic (`InvalidData`), unsupported
field (`ErrorKind::Unsupported`), or end of stream during `read_exact`. -/
inductive ReadErr where
  | magic
  | unsupported
  | eof
deriving DecidableEq

/-- `HashesHeader::from_array` (lines 93-116): check the magic, decode
flags bits 0..1 into the sort tag, decode the count and the two
fingerprints (unknown fingerprint is `Unsupported`). -/
def hashesFromArray (h : List Nat) :
    Except ReadErr (SortOrder × Nat × HashType × HashType) :=
  if h.take 4 ≠ hashesMagic then .error .magic
  else
    match HashType.from_fingerprint ((h.drop 16).take 8) with
    | none => .error .unsupported
    | some nh =>
      match HashType.from_fingerprint ((h.drop 24).take 8) with
      | none => .error .unsupported
      | some dh =>
        .ok (if leNum ((h.drop 4).take 4) &&& 3 = 0 then SortOrder.Unordered
             else if leNum ((h.drop 4).take 4) &&& 3 = 1 then .SortedByName
             else if leNum ((h.drop 4).take 4) &&& 3 = 3 then .SortedByData
             else .Unknown,
             leNum ((h.drop 8).take 8), nh, dh)

/-- The body reader: `size` packed 64-byte entries, `id` bytes then
`data` bytes. -/
def readEntries : Nat → List Nat → List HEntry
  | 0, _ => []
  | n + 1, bytes =>
    ⟨bytes.take 32, (bytes.drop 32).take 32⟩ :: readEntries n (bytes.drop 64)

/-- `HashesChunk::read` (lines 129-155): read the 64-byte header, fail
with `Unsupported` when the count exceeds `u32::MAX`, then read the packed
entries; returns the chunk and the unread remainder of the stream. -/
def readHashesChunk (bytes : List Nat) :
    Except ReadErr (HashesChunk × List Nat) :=
  if bytes.length < 64 then .error .eof
  else
    match hashesFromArray (bytes.take 64) with
    | .error e => .error e
    | .ok (sort, size, nh, dh) =>
      if 4294967295 < size then .error .unsupported
      else if (bytes.drop 64).length < size * 64 then .error .eof
      else .ok ({ data := readEntries size (bytes.drop 64), sort := sort,
                  name_hash := nh, data_hash := dh },
                (bytes.drop 64).drop (size * 64))

/-- `HashesChunk::write` (lines 157-179): fail with `Unsupported` beyond
`u32::MAX` entries, else emit the 64-byte header then the packed entry
bytes. -/
def writeHashesChunk (c : HashesChunk) : Except ReadErr (List Nat) :=
  if 4294967295 < c.data.length then .error .unsupported
  else .ok (hashesHeaderBytes c.sort c.data.length c.name_hash c.data_hash ++
    (c.data.map (fun e => e.id ++ e.data)).flatten)

/-- `HashesChunk::verify_sorted` (lines 181-183): all adjacent pairs
compare `!= Greater`. -/
def verifySorted : List HEntry → Bool
  | a :: b :: rest => entryLe a b && verifySorted (b :: rest)
  | _ => true

/-- `HashesChunk::sort` (lines 193-196): sort the entries in place and set
the tag to `SortedByName`. -/
def sortChunk (c : HashesChunk) : HashesChunk :=
  { c with data := sortEntries c.data, sort := .SortedByName }

/-- `HashesChunk::new_sha256` (lines 120-127): note the `sorted` argument
is not used by the body. -/
def new_sha256 (data : List HEntry) (sorted : Bool) : HashesChunk :=
  { data := data, sort := .SortedByName, name_hash := .Sha256,
    data_hash := .Sha256 }

theorem cmpO_swap {N : Type} [LinearOrder N] (a b : N) :
    cmpO b a = (cmpO a b).swap := by
  rcases lt_trichotomy a b with hlt | heq | hgt
  · rw [cmpO_of_lt hlt, cmpO_of_gt hlt]
    rfl
  · rw [cmpO_of_eq heq, cmpO_of_eq heq.symm]
    rfl
  · rw [cmpO_of_gt hgt, cmpO_of_lt hgt]
    rfl

theorem zip_swap_eq : ∀ (l1 l2 : List Nat),
    l2.zip l1 = (l1.zip l2).map Prod.swap := by
  intro l1
  induction l1 with
  | nil =>
    intro l2
    cases l2 <;> simp
  | cons a as ih =>
    intro l2
    cases l2 with
    | nil => simp
    | cons b bs =>
      show (b, a) :: bs.zip as = ((a, b) :: as.zip bs).map Prod.swap
      rw [List.map_cons, ih bs]
      rfl

theorem cmpPairs_swap : ∀ (l : List (Nat × Nat)),
    cmpPairs (l.map Prod.swap) = (cmpPairs l).swap := by
  intro l
  induction l with
  | nil => rfl
  | cons p rest ih =>
    obtain ⟨a, b⟩ := p
    show cmpPairs ((b, a) :: rest.map Prod.swap) = (cmpPairs ((a, b) :: rest)).swap
    have h2 : cmpPairs ((b, a) :: rest.map Prod.swap)
        = match cmpO b a with
          | .eq => cmpPairs (rest.map Prod.swap)
          | o => o := rfl
    have h3 : cmpPairs ((a, b) :: rest)
        = match cmpO a b with
          | .eq => cmpPairs rest
          | o => o := rfl
    rw [h2, h3, cmpO_swap a b]
    cases cmpO a b
    · rfl
    · simpa using ih
    · rfl

theorem haCmp_swap (x y : List Nat) : haCmp y x = (haCmp x y).swap := by
  unfold haCmp
  rw [zip_swap_eq, ← List.map_reverse, cmpPairs_swap]

theorem entryCmp_gt_asymm {a b : HEntry} (h : entryCmp a b = .gt) :
    entryCmp b a = .lt := by
  unfold entryCmp at h ⊢
  rw [haCmp_swap a.id b.id, haCmp_swap a.data b.data]
  cases hid : haCmp a.id b.id with
  | lt =>
    rw [hid] at h
    have h2 : Ordering.lt = Ordering.gt := h
    cases h2
  | eq =>
    rw [hid] at h
    have h2 : haCmp a.data b.data = Ordering.gt := h
    show (haCmp a.data b.data).swap = Ordering.lt
    rw [h2]
    rfl
  | gt => rfl

theorem entryLe_total {a b : HEntry} (h : entryLe a b = false) :
    entryLe b a = true := by
  unfold entryLe at h ⊢
  cases hc : entryCmp a b <;> rw [hc] at h <;> try cases h
  rw [entryCmp_gt_asymm hc]

theorem insertE_head (a : HEntry) (l : List HEntry) :
    (insertE a l).head? = some a ∨ (insertE a l).head? = l.head? := by
  cases l with
  | nil => simp [insertE]
  | cons b bs =>
    by_cases h : entryLe a b = true <;> simp [insertE, h]

theorem insertE_chain (a : HEntry) :
    ∀ l, List.Chain' (fun x y => entryLe x y = true) l →
      List.Chain' (fun x y => entryLe x y = true) (insertE a l) := by
  intro l
  induction l with
  | nil =>
    intro _
    simp [insertE]
  | cons b bs ih =>
    intro h
    rw [List.chain'_cons'] at h
    simp only [insertE]
    by_cases hab : entryLe a b = true
    · rw [if_pos hab, List.chain'_cons']
      refine ⟨?_, ?_⟩
      · intro y hy
        simp only [List.head?_cons, Option.mem_def, Option.some.injEq] at hy
        rw [← hy]
        exact hab
      · rw [List.chain'_cons']
        exact h
    · rw [if_neg hab, List.chain'_cons']
      refine ⟨?_, ih h.2⟩
      intro y hy
      have hba : entryLe b a = true :=
        entryLe_total (Bool.not_eq_true _ ▸ hab)
      rcases insertE_head a bs with hh | hh
      · rw [hh] at hy
        simp only [Option.mem_def, Option.some.injEq] at hy
        rw [← hy]
        exact hba
      · rw [hh] at hy
        exact h.1 y hy

theorem sortEntries_chain (l : List HEntry) :
    List.Chain' (fun x y => entryLe x y = true) (sortEntries l) := by
  induction l with
  | nil => simp [sortEntries]
  | cons a as ih =>
    have h : sortEntries (a :: as) = insertE a (sortEntries as) := rfl
    rw [h]
    exact insertE_chain a _ ih

/-- C9: after `sort()` the chunk's tag is `SortedByName` and every
adjacent pair of entries has non-decreasing name hashes under the
fingerprint ordering (entries compared first by name hash, then by
content hash). -/
theorem sortChunk_sorted_by_name (c : HashesChunk) :
    (sortChunk c).sort = SortOrder.SortedByName ∧
    List.Chain' (fun a b => haCmp a.id b.id ≠ Ordering.gt)
      (sortChunk c).data := by
  refine ⟨rfl, ?_⟩
  have h := sortEntries_chain c.data
  apply List.Chain'.imp ?_ h
  intro a b hab
  intro hid
  unfold entryLe entryCmp at hab
  rw [hid] at hab
  cases hab

/-- C10: `new_sha256` tags every chunk `SortedByName` regardless of the
`sorted` argument, so an unsorted entry vector carries the `SortedByName`
tag while the sorted-adjacent-pairs invariant fails. -/
theorem new_sha256_ignores_sorted :
    (∀ (data : List HEntry) (sorted : Bool),
        (new_sha256 data sorted).sort = SortOrder.SortedByName ∧
        new_sha256 data sorted = new_sha256 data true) ∧
    ((new_sha256 [⟨1 :: List.replicate 31 0, List.replicate 32 0⟩,
        ⟨List.replicate 32 0, List.replicate 32 0⟩] false).sort
        = SortOrder.SortedByName ∧
      verifySorted (new_sha256 [⟨1 :: List.replicate 31 0, List.replicate 32 0⟩,
        ⟨List.replicate 32 0, List.replicate 32 0⟩] false).data = false) :=
  ⟨fun _ _ => ⟨rfl, rfl⟩, rfl, by decide⟩

theorem natToLE_length : ∀ (k v : Nat), (natToLE v k).length = k := by
  intro k
  induction k with
  | zero => intro v; rfl
  | succ k ih =>
    intro v
    simp [natToLE, ih]

theorem leNum_natToLE : ∀ (k v : Nat), v < 256 ^ k →
    leNum (natToLE v k) = v := by
  intro k
  induction k with
  | zero =>
    intro v hv
    simp only [Nat.pow_zero, Nat.lt_one_iff] at hv
    simp [hv, natToLE, leNum]
  | succ k ih =>
    intro v hv
    have hdiv : v / 256 < 256 ^ k := by
      rw [Nat.div_lt_iff_lt_mul (by norm_num)]
      calc v < 256 ^ (k + 1) := hv
        _ = 256 ^ k * 256 := by ring
    simp only [natToLE, leNum, List.foldr_cons]
    have h2 : (v % 256) % 256 = v % 256 := by omega
    have h3 : List.foldr (fun b acc => b % 256 + 256 * acc) 0
        (natToLE (v / 256) k) = v / 256 := ih (v / 256) hdiv
    rw [h2, h3]
    omega

theorem get_fingerprint_length (t : HashType) : t.get_fingerprint.length = 8 := by
  cases t <;> rfl

theorem from_get_fingerprint (t : HashType) :
    HashType.from_fingerprint t.get_fingerprint = some t := by
  cases t <;> rfl

theorem toFlag_lt (s : SortOrder) : s.toFlag < 4 := by
  cases s <;> decide

theorem hashesHeaderBytes_length (sort : SortOrder) (size : Nat)
    (nh dh : HashType) : (hashesHeaderBytes sort size nh dh).length = 64 := by
  simp [hashesHeaderBytes, hashesMagic, natToLE_length, get_fingerprint_length]

/-- Parsing the header bytes written by `to_array` recovers the fields. -/
theorem hashesFromArray_headerBytes (sort : SortOrder) (size : Nat)
    (nh dh : HashType) (hsize : size < 256 ^ 8) :
    hashesFromArray (hashesHeaderBytes sort size nh dh)
      = .ok (sort, size, nh, dh) := by
  have hd4 : (hashesHeaderBytes sort size nh dh).drop 4
      = natToLE (sort.toFlag &&& 3) 4 ++ (natToLE size 8 ++
          (nh.get_fingerprint ++ (dh.get_fingerprint ++
            List.replicate 32 0))) := by
    have h : hashesHeaderBytes sort size nh dh
        = hashesMagic ++ (natToLE (sort.toFlag &&& 3) 4 ++ (natToLE size 8 ++
            (nh.get_fingerprint ++ (dh.get_fingerprint ++
              List.replicate 32 0)))) := by
      simp [hashesHeaderBytes, List.append_assoc]
    rw [h]
    exact List.drop_left' rfl
  have hd8 : (hashesHeaderBytes sort size nh dh).drop 8
      = natToLE size 8 ++ (nh.get_fingerprint ++ (dh.get_fingerprint ++
          List.replicate 32 0)) := by
    have h : hashesHeaderBytes sort size nh dh
        = (hashesMagic ++ natToLE (sort.toFlag &&& 3) 4) ++ (natToLE size 8 ++
            (nh.get_fingerprint ++ (dh.get_fingerprint ++
              List.replicate 32 0))) := by
      simp [hashesHeaderBytes, List.append_assoc]
    rw [h]
    exact List.drop_left' (by simp [hashesMagic, natToLE_length])
  have hd16 : (hashesHeaderBytes sort size nh dh).drop 16
      = nh.get_fingerprint ++ (dh.get_fingerprint ++ List.replicate 32 0) := by
    have h : hashesHeaderBytes sort size nh dh
        = ((hashesMagic ++ natToLE (sort.toFlag &&& 3) 4) ++ natToLE size 8) ++
            (nh.get_fingerprint ++ (dh.get_fingerprint ++
              List.replicate 32 0)) := by
      simp [hashesHeaderBytes, List.append_assoc]
    rw [h]
    exact List.drop_left' (by simp [hashesMagic, natToLE_length])
  have hd24 : (hashesHeaderBytes sort size nh dh).drop 24
      = dh.get_fingerprint ++ List.replicate 32 0 := by
    have h : hashesHeaderBytes sort size nh dh
        = (((hashesMagic ++ natToLE (sort.toFlag &&& 3) 4) ++ natToLE size 8) ++
            nh.get_fingerprint) ++
            (dh.get_fingerprint ++ List.replicate 32 0) := by
      simp [hashesHeaderBytes, List.append_assoc]
    rw [h]
    exact List.drop_left'
      (by simp [hashesMagic, natToLE_length, get_fingerprint_length])
  have htk4 : (hashesHeaderBytes sort size nh dh).take 4 = hashesMagic := by
    have h : hashesHeaderBytes sort size nh dh
        = hashesMagic ++ (natToLE (sort.toFlag &&& 3) 4 ++ (natToLE size 8 ++
            (nh.get_fingerprint ++ (dh.get_fingerprint ++
              List.replicate 32 0)))) := by
      simp [hashesHeaderBytes, List.append_assoc]
    rw [h]
    exact List.take_left' rfl
  have hflags : leNum (((hashesHeaderBytes sort size nh dh).drop 4).take 4)
      = sort.toFlag &&& 3 := by
    rw [hd4, List.take_left' (natToLE_length 4 _)]
    exact leNum_natToLE 4 _ (by
      have h1 := toFlag_lt sort
      have h2 : sort.toFlag &&& 3 ≤ sort.toFlag := Nat.and_le_left
      calc sort.toFlag &&& 3 ≤ sort.toFlag := h2
        _ < 4 := h1
        _ < 256 ^ 4 := by norm_num)
  have hsz : leNum (((hashesHeaderBytes sort size nh dh).drop 8).take 8)
      = size := by
    rw [hd8, List.take_left' (natToLE_length 8 _)]
    exact leNum_natToLE 8 _ hsize
  have hnh : ((hashesHeaderBytes sort size nh dh).drop 16).take 8
      = nh.get_fingerprint := by
    rw [hd16]
    exact List.take_left' (get_fingerprint_length nh)
  have hdh : ((hashesHeaderBytes sort size nh dh).drop 24).take 8
      = dh.get_fingerprint := by
    rw [hd24]
    exact List.take_left' (get_fingerprint_length dh)
  unfold hashesFromArray
  rw [htk4, hnh, hdh, from_get_fingerprint, from_get_fingerprint]
  simp only [ne_eq, not_true_eq_false, if_false, reduceIte, hflags, hsz]
  have hand : sort.toFlag &&& 3 &&& 3 = sort.toFlag := by
    cases sort <;> decide
  rw [hand]
  cases sort <;> rfl

theorem entriesBytes_length : ∀ (l : List HEntry),
    (∀ e ∈ l, e.id.length = 32 ∧ e.data.length = 32) →
    ((l.map (fun e => e.id ++ e.data)).flatten).length = l.length * 64 := by
  intro l
  induction l with
  | nil => intro _; rfl
  | cons e l2 ih =>
    intro h
    have he := h e (List.mem_cons_self e l2)
    have hrest := ih (fun x hx => h x (List.mem_cons_of_mem e hx))
    simp only [List.map_cons, List.flatten_cons, List.length_append,
      List.length_cons, hrest, he.1, he.2]
    omega

theorem readEntries_entriesBytes : ∀ (l : List HEntry),
    (∀ e ∈ l, e.id.length = 32 ∧ e.data.length = 32) →
    readEntries l.length ((l.map (fun e => e.id ++ e.data)).flatten) = l := by
  intro l
  induction l with
  | nil => intro _; rfl
  | cons e l2 ih =>
    intro h
    have he := h e (List.mem_cons_self e l2)
    have hrest := ih (fun x hx => h x (List.mem_cons_of_mem e hx))
    have hbytes : ((e :: l2).map (fun e => e.id ++ e.data)).flatten
        = e.id ++ (e.data ++ (l2.map (fun e => e.id ++ e.data)).flatten) := by
      simp [List.append_assoc]
    simp only [List.length_cons, readEntries, hbytes]
    have htk : (e.id ++ (e.data ++
        (l2.map (fun e => e.id ++ e.data)).flatten)).take 32 = e.id :=
      List.take_left' he.1
    have hdp : (e.id ++ (e.data ++
        (l2.map (fun e => e.id ++ e.data)).flatten)).drop 32
        = e.data ++ (l2.map (fun e => e.id ++ e.data)).flatten :=
      List.drop_left' he.1
    have htk2 : (e.data ++
        (l2.map (fun e => e.id ++ e.data)).flatten).take 32 = e.data :=
      List.take_left' he.2
    have hdp64 : (e.id ++ (e.data ++
        (l2.map (fun e => e.id ++ e.data)).flatten)).drop 64
        = (l2.map (fun e => e.id ++ e.data)).flatten := by
      have h2 : e.id ++ (e.data ++ (l2.map (fun e => e.id ++ e.data)).flatten)
          = (e.id ++ e.data) ++ (l2.map (fun e => e.id ++ e.data)).flatten := by
        simp [List.append_assoc]
      rw [h2]
      exact List.drop_left' (by simp [he.1, he.2])
    rw [htk, hdp, htk2, hdp64, hrest]

/-- C7: for every chunk of well-formed 32+32-byte entries whose count is
at most `2^32 - 1`, writing the chunk and reading the bytes back yields an
equal chunk (same entries, order, sort tag, and hash types) with the
stream fully consumed; a chunk with zero entries serializes to exactly the
64-byte header. -/
theorem hashesChunk_write_read_roundtrip (c : HashesChunk)
    (hwf : ∀ e ∈ c.data, e.id.length = 32 ∧ e.data.length = 32)
    (hcount : c.data.length ≤ 4294967295) :
    ∃ bs, writeHashesChunk c = .ok bs ∧ readHashesChunk bs = .ok (c, []) ∧
      (c.data = [] → bs.length = 64) := by
  have hwrite : writeHashesChunk c
      = .ok (hashesHeaderBytes c.sort c.data.length c.name_hash c.data_hash ++
          (c.data.map (fun e => e.id ++ e.data)).flatten) := by
    unfold writeHashesChunk
    rw [if_neg (by omega)]
  refine ⟨_, hwrite, ?_, ?_⟩
  · have hblen := entriesBytes_length c.data hwf
    have hhlen := hashesHeaderBytes_length c.sort c.data.length c.name_hash
      c.data_hash
    unfold readHashesChunk
    rw [if_neg (by rw [List.length_append, hhlen]; omega)]
    have htk64 : (hashesHeaderBytes c.sort c.data.length c.name_hash
        c.data_hash ++ (c.data.map (fun e => e.id ++ e.data)).flatten).take 64
        = hashesHeaderBytes c.sort c.data.length c.name_hash c.data_hash :=
      List.take_left' hhlen
    have hdp64 : (hashesHeaderBytes c.sort c.data.length c.name_hash
        c.data_hash ++ (c.data.map (fun e => e.id ++ e.data)).flatten).drop 64
        = (c.data.map (fun e => e.id ++ e.data)).flatten :=
      List.drop_left' hhlen
    rw [htk64, hashesFromArray_headerBytes c.sort c.data.length c.name_hash
      c.data_hash (by
        have h256 : (4294967295 : Nat) < 256 ^ 8 := by norm_num
        omega)]
    dsimp only
    rw [if_neg (by omega), hdp64]
    rw [if_neg (by rw [hblen]; omega)]
    rw [readEntries_entriesBytes c.data hwf]
    have hdrop : ((c.data.map (fun e => e.id ++ e.data)).flatten).drop
        (c.data.length * 64) = [] := by
      rw [← hblen]
      exact List.drop_length _
    rw [hdrop]
  · intro hempty
    simp [hempty, hashesHeaderBytes_length]

/-- Witness for C7: the empty SHA-256 chunk round-trips and its encoding
is exactly the 64-byte header. -/
theorem hashesChunk_write_read_roundtrip_witness :
    ((∀ e ∈ (⟨[], .SortedByName, .Sha256, .Sha256⟩ : HashesChunk).data,
        e.id.length = 32 ∧ e.data.length = 32) ∧
     (⟨[], .SortedByName, .Sha256, .Sha256⟩ : HashesChunk).data.length
       ≤ 4294967295) ∧
    (∃ bs, writeHashesChunk ⟨[], .SortedByName, .Sha256, .Sha256⟩ = .ok bs ∧
      readHashesChunk bs = .ok (⟨[], .SortedByName, .Sha256, .Sha256⟩, []) ∧
      ((⟨[], .SortedByName, .Sha256, .Sha256⟩ : HashesChunk).data = [] →
        bs.length = 64)) :=
  ⟨⟨by simp, by simp⟩,
   hashesChunk_write_read_roundtrip ⟨[], .SortedByName, .Sha256, .Sha256⟩
     (by simp) (by simp)⟩

/-- C8: whenever the stream holds a full header with the Hashes magic but
the entry count exceeds `2^32 - 1` or either 8-byte hash fingerprint is
unknown, the read fails with the unsupported-format error, and no chunk is
returned. -/
theorem readHashesChunk_unsupported (bytes : List Nat)
    (hlen : 64 ≤ bytes.length)
    (hmagic : bytes.take 4 = hashesMagic)
    (hbad : 4294967295 < leNum ((bytes.drop 8).take 8) ∨
      HashType.from_fingerprint ((bytes.drop 16).take 8) = none ∨
      HashType.from_fingerprint ((bytes.drop 24).take 8) = none) :
    readHashesChunk bytes = .error .unsupported := by
  have hslice : ∀ k, k + 8 ≤ 64 →
      ((bytes.take 64).drop k).take 8 = (bytes.drop k).take 8 := by
    intro k hk
    rw [List.drop_take]
    rw [List.take_take]
    congr 1
    omega
  have htk4 : (bytes.take 64).take 4 = hashesMagic := by
    rw [List.take_take]
    have h : min 4 64 = 4 := by norm_num
    rw [h, hmagic]
  unfold readHashesChunk hashesFromArray
  rw [if_neg (by omega)]
  rw [htk4]
  rw [if_neg (by simp)]
  rw [hslice 16 (by norm_num), hslice 24 (by norm_num),
    hslice 8 (by norm_num)]
  cases hn : HashType.from_fingerprint ((bytes.drop 16).take 8) with
  | none => rfl
  | some nh =>
    cases hd : HashType.from_fingerprint ((bytes.drop 24).take 8) with
    | none => rfl
    | some dh =>
      have hsz : 4294967295 < leNum ((bytes.drop 8).take 8) := by
        rcases hbad with h | h | h
        · exact h
        · rw [hn] at h
          cases h
        · rw [hd] at h
          cases h
      simp only []
      rw [if_pos hsz]

/-- Witness for C8: a 64-byte block with the Hashes magic and an
all-zero (unknown) name-hash fingerprint is rejected as unsupported. -/
theorem readHashesChunk_unsupported_witness :
    (64 ≤ (hashesMagic ++ List.replicate 60 0).length ∧
     (hashesMagic ++ List.replicate 60 0).take 4 = hashesMagic ∧
     (4294967295 <
        leNum (((hashesMagic ++ List.replicate 60 0).drop 8).take 8) ∨
      HashType.from_fingerprint
        (((hashesMagic ++ List.replicate 60 0).drop 16).take 8) = none ∨
      HashType.from_fingerprint
        (((hashesMagic ++ List.replicate 60 0).drop 24).take 8) = none)) ∧
    readHashesChunk (hashesMagic ++ List.replicate 60 0)
      = .error .unsupported :=
  ⟨⟨by decide, by decide, Or.inr (Or.inl (by decide))⟩,
   readHashesChunk_unsupported (hashesMagic ++ List.replicate 60 0)
     (by decide) (by decide) (Or.inr (Or.inl (by decide)))⟩

/-! ### The scan runner's per-file pipeline (src/hasher/runner.rs)

For each scheduled file the scheduler spawns a reader task
(`read_file`, reporting its error through `consumer.on_error`) and a
worker task (`process_file`).  The per-file channel closes when the reader
returns, whether it returned `Ok` or `Err`; `process_file` drains the
channel and then unconditionally calls `finish_consume`.  Files and
digests are abstracted: a path is a `Nat`, and an emitted entry is
represented by the path (the name-hash input) paired with the bytes
consumed (the content-digest input). -/

/-- The observable I/O behaviour of one input file: either `File::open`
fails, or the reads deliver this chunk sequence and then end cleanly
(`none`) or with a read error (`some e`).  `read_file` sends each chunk
before inspecting the read result, so on a read error the partially
filled chunk is already part of the sequence. -/
inductive FileSource where
  | openFail (e : Nat)
  | content (chunks : List (List Nat)) (readErr : Option Nat)
deriving DecidableEq

/-- `ScanRunner::read_file` (lines 216-239): the chunks sent down the
per-file channel, and the error it returns (which the scheduler's reader
closure passes to `on_error`, lines 200-205).  An open failure sends
nothing. -/
def readFileModel : FileSource → List (List Nat) × Option Nat
  | .openFail e => ([], some e)
  | .content chunks err => (chunks, err)

/-- `ScanRunner::process_file` (lines 240-253) with a `DigestConsumer`:
`consume_name(path)`, then `update_file` for every chunk received until
`recv` fails (channel closed), then `finish_consume` — exactly one entry
is emitted for the file, whether the close was clean or caused by an
error. -/
def processFileModel (path : Nat) (received : List (List Nat)) :
    List (Nat × List Nat) :=
  [(path, received.flatten)]

/-- One scheduled file: the worker consumes everything the reader sent;
the reader's error is reported as `on_error(error, path)`. -/
def scanFileModel (path : Nat) (src : FileSource) :
    List (Nat × List Nat) × Option (Nat × Nat) :=
  (processFileModel path (readFileModel src).1,
   (readFileModel src).2.map (fun e => (e, path)))

/-- `scheduler_run` (lines 182-214) over a finite input list: each file is
scheduled in turn; an error in one file does not stop the loop. The first
component collects the entries emitted through the consumer's sink, the
second the `(error, path)` pairs reported to `on_error`. -/
def scanRunnerModel :
    List (Nat × FileSource) → List (Nat × List Nat) × List (Nat × Nat)
  | [] => ([], [])
  | (p, src) :: rest =>
    ((scanFileModel p src).1 ++ (scanRunnerModel rest).1,
     (scanFileModel p src).2.toList ++ (scanRunnerModel rest).2)

/-- Counterexample to C1 as stated: for a file whose open fails (and
likewise for a mid-file read error), `on_error` is invoked and the
pipeline continues, but an entry for that file IS emitted through the
consumer's sink — the worker cannot distinguish an error close from a
clean close, so it finalizes and emits unconditionally.  Here scheduling
`[(0, openFail 7), (1, content [[1, 2]] none)]` emits an entry for file 0
(over zero consumed bytes) even though file 0's open failed. -/
theorem scan_error_still_emits :
    (scanFileModel 0 (.openFail 7)).2 = some (7, 0) ∧
    (scanFileModel 0 (.openFail 7)).1 ≠ [] ∧
    scanRunnerModel [(0, .openFail 7), (1, .content [[1, 2]] none)]
      = ([(0, []), (1, [1, 2])], [(7, 0)]) :=
  ⟨rfl, by decide, rfl⟩

/-- C1 (amended): for every input list, `on_error` receives the error and
path of exactly the failing files and the scheduler continues with the
remaining files; however the worker emits exactly one entry for every
scheduled file — it emits on every channel close, clean or not — so a
file whose open fails or whose read errors still contributes an entry
whose content digest covers only the bytes read before the failure. -/
theorem scanRunner_on_error_and_emissions (files : List (Nat × FileSource)) :
    (scanRunnerModel files).1
      = files.map (fun pf => (pf.1, (readFileModel pf.2).1.flatten)) ∧
    (scanRunnerModel files).2
      = files.filterMap
          (fun pf => (readFileModel pf.2).2.map (fun e => (e, pf.1))) := by
  induction files with
  | nil => exact ⟨rfl, rfl⟩
  | cons pf rest ih =>
    obtain ⟨p, src⟩ := pf
    constructor
    · simp only [scanRunnerModel, scanFileModel, processFileModel,
        List.map_cons, List.singleton_append, ih.1]
    · simp only [scanRunnerModel, scanFileModel, List.filterMap_cons, ih.2]
      cases hsrc : (readFileModel src).2 <;> simp

end HashSummer
